import Mathlib

/-!
# Verification of `qutip/odechecks.py`

Shallow embedding of the two functions of the source file:

* `_ode_checks(H, c_ops, solver)` — validates the shape of a time-dependent
  Hamiltonian / collapse-operator specification, rejects mixed
  string/function encodings, checks the Cython capability, and returns a
  solver-mode dependent discriminant.
* `_td_wrap_array_str(H, c_ops, args, times)` — rewrites numpy-array based
  time dependence into the string based format, threading a shared counter
  `n` and synthesizing `_td_array_<n>` parameters.

Python runtime values are modelled by the inductive type `PyVal`.  The
classes the source dispatches on (`Qobj`, `FunctionType`,
`BuiltinFunctionType`, `functools.partial`, `str`, `np.ndarray`, `list`,
`dict`) each get a constructor; payloads that the source never inspects
(the operator itself, the function object, the array samples) are opaque
identifiers or sample lists.  Time-grid entries are modelled as exact
integers: every grid in the claims is integral, and Python's `"%f"`
formatting of an integral float `d` renders as `d.000000`, which
`fmtFloat` reproduces.  `raise` is modelled with `Except`.
-/

/-- The three callable classes tested by
`isinstance(x, (FunctionType, BuiltinFunctionType, partial))`.
The distinction matters: line 137 of the source tests `FunctionType` alone. -/
inductive FuncKind where
  | function
  | builtin
  | partialFn
deriving DecidableEq

/-- A Python runtime value, restricted to the classes `odechecks.py` dispatches
on plus generic stand-ins (`pyInt`, `pyNone`) for values of other kinds. -/
inductive PyVal where
  /-- A `qutip.Qobj` operator token; the payload is an opaque identity. -/
  | qobj (id : Nat)
  /-- A callable: plain function, builtin function, or `functools.partial`. -/
  | func (kind : FuncKind) (id : Nat)
  /-- A Python `str`. -/
  | str (s : String)
  /-- A `numpy.ndarray` of samples (payload opaque to the source's control flow). -/
  | ndarray (samples : List Int)
  /-- A Python `list`. -/
  | list (xs : List PyVal)
  /-- A Python `dict` with string keys, in insertion order. -/
  | dict (entries : List (String × PyVal))
  /-- A Python number of any other kind. -/
  | pyInt (i : Int)
  /-- `None`. -/
  | pyNone

/-- `isinstance(e, list)`. -/
def PyVal.isList : PyVal → Bool
  | .list _ => true
  | _ => false

/-- `isinstance(e, Qobj)`. -/
def PyVal.isQobj : PyVal → Bool
  | .qobj _ => true
  | _ => false

/-- Python truthiness (`if args:`).  Containers and strings are truthy iff
non-empty, numbers iff non-zero, `None` is falsy, and other objects default
to `True`.  (`numpy` raises on truth-testing a multi-element array; no claim
exercises that case, and we model array truthiness as non-emptiness.) -/
def truthy : PyVal → Bool
  | .qobj _ => true
  | .func _ _ => true
  | .str s => !s.isEmpty
  | .ndarray a => !a.isEmpty
  | .list xs => !xs.isEmpty
  | .dict d => !d.isEmpty
  | .pyInt i => i != 0
  | .pyNone => false

/-- The errors `_ode_checks` can raise. -/
inductive ClassifyError where
  /-- `TypeError("Incorrect hamiltonian specification")` (lines 57, 67, 69). -/
  | malformedH
  /-- `TypeError("Incorrect collapse operator specification")` (lines 81, 92, 95). -/
  | malformedC
  /-- `TypeError("Cannot mix string and function type time-dependence formats")` (line 103). -/
  | mixedEncoding
  /-- `Exception("Unable to load Cython. Use Python function format.")` (line 111). -/
  | cythonMissing
  /-- On the "Cython version too old" path (line 115) the source computes
  `"Cython version (%s) is too old. Upgrade to " + "version 0.14+" % Cython.__version__`:
  `%` binds tighter than `+`, so the format is applied to the literal
  `"version 0.14+"`, whose `%0.14+` is an invalid conversion specifier — a
  `ValueError` is raised while building the message, before the intended
  `Exception` exists.  This constructor models that `ValueError`. -/
  | versionFormatError
  /-- `Exception("Error determining time-dependence.")` (lines 151, 160, 169). -/
  | ambiguous
  /-- Falling through the `mc` time-type chain with `time_type` unbound would
  raise `UnboundLocalError` at line 171; the branch is unreachable. -/
  | unboundLocal
deriving DecidableEq

/-- The per-list index partition: `h_const`/`h_func`/`h_str`
(resp. `c_const`/`c_func`/`c_str`). -/
structure TdPartition where
  const : List Nat
  func : List Nat
  strs : List Nat
deriving DecidableEq

/-- The value returned by `_ode_checks` for the two supported solvers. -/
inductive SolverResult where
  /-- `solver == 'me'`: `(len(h_const + c_const), len(h_func) + len(c_func),
  len(h_str) + len(c_str))` (lines 118-121). -/
  | me (nConst nFunc nStr : Nat)
  /-- `solver == 'mc'`: `time_type, [h_const, h_func, h_str],
  [c_const, c_func, c_str]` (line 171). -/
  | mc (timeType : Nat) (hp cp : TdPartition)
deriving DecidableEq

/-- One iteration of the element loops of `_ode_checks` (lines 52-67 for the
Hamiltonian, 76-93 for the collapse operators; the raised error message is the
`err` parameter).  A `Qobj` goes to the constant partition; a list must be a
two-element `[Qobj, descriptor]` pair with the descriptor a callable, string
or array, else `TypeError`; both loops are `if`/`elif` **without** an `else`,
so any element that is neither a `Qobj` nor a `list` is silently skipped. -/
def elemStep (err : ClassifyError) (p : TdPartition) (k : Nat) (e : PyVal) :
    Except ClassifyError TdPartition :=
  match e with
  | .qobj _ => .ok { p with const := p.const ++ [k] }
  | .list l =>
    match l with
    | [.qobj _, .func _ _] => .ok { p with func := p.func ++ [k] }
    | [.qobj _, .str _] => .ok { p with strs := p.strs ++ [k] }
    | [.qobj _, .ndarray _] => .ok { p with strs := p.strs ++ [k] }
    | _ => .error err
  | _ => .ok p

/-- The element loop itself (`for k, H_k in enumerate(H)` resp.
`for k in range(len(c_ops))`), threading the index `k` and the partition. -/
def partitionGo (err : ClassifyError) : Nat → TdPartition → List PyVal →
    Except ClassifyError TdPartition
  | _, p, [] => .ok p
  | k, p, e :: rest =>
    match elemStep err p k e with
    | .error e' => .error e'
    | .ok p' => partitionGo err (k + 1) p' rest

/-- Hamiltonian shape check (lines 47-69): a bare `Qobj` or a callable passes
with empty partitions; a list is scanned element-wise; anything else raises
`TypeError("Incorrect hamiltonian specification")`. -/
def hPartition (H : PyVal) : Except ClassifyError TdPartition :=
  match H with
  | .qobj _ => .ok ⟨[], [], []⟩
  | .func _ _ => .ok ⟨[], [], []⟩
  | .list xs => partitionGo .malformedH 0 ⟨[], [], []⟩ xs
  | _ => .error .malformedH

/-- Collapse-operator shape check (lines 72-95): only a list is accepted at
top level. -/
def cPartition (c_ops : PyVal) : Except ClassifyError TdPartition :=
  match c_ops with
  | .list xs => partitionGo .malformedC 0 ⟨[], [], []⟩ xs
  | _ => .error .malformedC

/-- Lexicographic comparison of code-point sequences: Python's `<` on `str`.
(Defined structurally because Lean's builtin `String` order is well-founded
recursive and does not reduce in the kernel.) -/
def charListLt : List Char → List Char → Bool
  | [], [] => false
  | [], _ :: _ => true
  | _ :: _, [] => false
  | c :: cs, d :: ds => if c < d then true else if d < c then false else charListLt cs ds

/-- Python `a < b` on strings: lexicographic by code point. -/
def pyStrLt (a b : String) : Bool := charListLt a.data b.data

/-- The Cython capability probe (lines 107-116).  The `cython` argument is
`some v` when `import Cython` succeeds and `v` is `Cython.__version__`; the
version comparison `Cython.__version__ < '0.14'` is Python's lexicographic
string comparison `pyStrLt`. -/
def cythonCheck (cython : Option String) : Except ClassifyError Unit :=
  match cython with
  | none => .error .cythonMissing
  | some v => if pyStrLt v "0.14" then .error .versionFormatError else .ok ()

/-- `isinstance(H, FunctionType)` as tested on line 137 — note this test,
unlike line 49, accepts neither `BuiltinFunctionType` nor `partial`. -/
def isFunctionType : PyVal → Bool
  | .func .function _ => true
  | _ => false

/-- The `solver == 'mc'` time-type chain (lines 137-169). -/
def mcTimeType (H : PyVal) (hp cp : TdPartition) : Except ClassifyError Nat :=
  if isFunctionType H then .ok 3
  else if hp.func.length = 0 ∧ hp.strs.length = 0 ∧
      cp.func.length = 0 ∧ cp.strs.length = 0 then .ok 0
  else if hp.func.length = 0 ∧ hp.strs.length = 0 then
    if cp.strs.length > 0 then .ok 1
    else if cp.func.length > 0 then .ok 2
    else .error .ambiguous
  else if hp.strs.length > 0 then
    if cp.func.length = 0 ∧ cp.strs.length = 0 then .ok 10
    else if cp.strs.length > 0 then .ok 11
    else .error .ambiguous
  else if hp.func.length > 0 then
    if cp.func.length = 0 ∧ cp.strs.length = 0 then .ok 20
    else if cp.func.length > 0 then .ok 22
    else .error .ambiguous
  else .error .unboundLocal

/-- The validation prefix of `_ode_checks` (lines 43-116): both shape checks,
the per-list mixed-encoding check (lines 101-104), and — only when a
string/array partition is non-empty — the Cython capability check. -/
def odeValidate (cython : Option String) (H c_ops : PyVal) :
    Except ClassifyError (TdPartition × TdPartition) :=
  match hPartition H with
  | .error e => .error e
  | .ok hp =>
    match cPartition c_ops with
    | .error e => .error e
    | .ok cp =>
      if (hp.strs.length > 0 ∧ hp.func.length > 0) ∨
          (cp.strs.length > 0 ∧ cp.func.length > 0) then
        .error .mixedEncoding
      else if hp.strs.length > 0 ∨ cp.strs.length > 0 then
        match cythonCheck cython with
        | .error e => .error e
        | .ok _ => .ok (hp, cp)
      else .ok (hp, cp)

/-- `_ode_checks(H, c_ops, solver)` (lines 39-171).  For `solver == 'me'` it
returns the three aggregate counts, for `solver == 'mc'` the time-type code
with both partitions; for any other solver value the function body simply
falls off the end after all the checks, i.e. Python returns `None`. -/
def odeChecks (cython : Option String) (H c_ops : PyVal) (solver : String) :
    Except ClassifyError (Option SolverResult) :=
  match odeValidate cython H c_ops with
  | .error e => .error e
  | .ok (hp, cp) =>
    if solver = "me" then
      .ok (some (.me (hp.const ++ cp.const).length
        (hp.func.length + cp.func.length) (hp.strs.length + cp.strs.length)))
    else if solver = "mc" then
      match mcTimeType H hp cp with
      | .error e => .error e
      | .ok tt => .ok (some (.mc tt hp cp))
    else .ok none

/-! ## The array normalizer `_td_wrap_array_str` (lines 174-223) -/

/-- The errors `_td_wrap_array_str` can raise. -/
inductive WrapError where
  /-- `IndexError`: `Hk[1]` on a list of length `< 2`, or `times[-1]` on an
  empty grid. -/
  | indexError
  /-- `ValueError`: the unpacking `H_op, H_td = Hk` on a list whose length is
  not exactly 2. -/
  | unpackError
  /-- `ValueError("Time-dependent array format requires args to be a dictionary")`
  (lines 220-221). -/
  | argsValueError
deriving DecidableEq

/-- `"%f"` applied to an integral float: six zero decimals. -/
def fmtFloat (x : Int) : String := toString x ++ ".000000"

/-- `"_td_array_%d" % n` (lines 190, 205). -/
def tdName (n : Nat) : String := "_td_array_" ++ Nat.repr n

/-- `'(0 if (t > %f) else %s[round(%d * (t/%f))])' % (times[-1], td_array_name,
len(times) - 1, times[-1])` (lines 191-192, 206-207). -/
def tdStr (tEnd : Int) (name : String) (nIdx : Nat) : String :=
  "(0 if (t > " ++ fmtFloat tEnd ++ ") else " ++ name ++ "[round(" ++
    Nat.repr nIdx ++ " * (t/" ++ fmtFloat tEnd ++ "))])"

/-- Python dict assignment `d[k] = v`: replace the value at the first
occurrence of `k`, else append the new binding. -/
def dictInsert : List (String × PyVal) → String → PyVal → List (String × PyVal)
  | [], k, v => [(k, v)]
  | (k', v') :: rest, k, v =>
    if k' = k then (k', v) :: rest else (k', v') :: dictInsert rest k v

/-- Python `base.update(upd)`: assign every binding of `upd` into `base`, in
order. -/
def dictUpdate (base upd : List (String × PyVal)) : List (String × PyVal) :=
  upd.foldl (fun acc kv => dictInsert acc kv.1 kv.2) base

/-- Python `d[k]` / `k in d` as a partial lookup. -/
def dictGet? : List (String × PyVal) → String → Option PyVal
  | [], _ => none
  | (k', v) :: rest, k => if k' = k then some v else dictGet? rest k

/-- The mutable state of `_td_wrap_array_str`: the counter `n` and the
synthesized parameter dict `args_new`, shared between the two loop passes. -/
structure WrapState where
  n : Nat
  args_new : List (String × PyVal)

/-- One iteration of the rewriting loops (lines 187-197 and 202-212).  The
test is `isinstance(Hk, list) and isinstance(Hk[1], np.ndarray)`: indexing
`Hk[1]` raises `IndexError` on a list shorter than 2; when the descriptor is
an array, the unpacking `H_op, H_td = Hk` demands length exactly 2, the
expression string is built from `times[-1]` (raising `IndexError` on an empty
grid), the array is bound to the fresh name in `args_new`, and `n` is
incremented.  Everything else is appended unchanged. -/
def wrapTerm (times : List Int) (st : WrapState) (e : PyVal) :
    Except WrapError (PyVal × WrapState) :=
  match e with
  | .list l =>
    match l.get? 1 with
    | none => .error .indexError
    | some (.ndarray a) =>
      match l with
      | [op, _] =>
        match times.getLast? with
        | none => .error .indexError
        | some tEnd =>
          .ok (.list [op, .str (tdStr tEnd (tdName st.n) (times.length - 1))],
            ⟨st.n + 1, dictInsert st.args_new (tdName st.n) (.ndarray a)⟩)
      | _ => .error .unpackError
    | some _ => .ok (e, st)
  | _ => .ok (e, st)

/-- A whole rewriting loop over one specification list. -/
def wrapPass (times : List Int) (st : WrapState) :
    List PyVal → Except WrapError (List PyVal × WrapState)
  | [] => .ok ([], st)
  | e :: rest =>
    match wrapTerm times st e with
    | .error err => .error err
    | .ok (e', st') =>
      match wrapPass times st' rest with
      | .error err => .error err
      | .ok (ys, st'') => .ok (e' :: ys, st'')

/-- The final `args` merge (lines 214-221): a falsy `args` leaves the
synthesized dict; a dict is `update`d into it (caller entries win); any other
truthy value is returned verbatim when nothing was synthesized and otherwise
raises `ValueError`. -/
def mergeArgs (args_new : List (String × PyVal)) (args : PyVal) :
    Except WrapError PyVal :=
  if truthy args then
    match args with
    | .dict d => .ok (.dict (dictUpdate args_new d))
    | _ =>
      if args_new.isEmpty then .ok args else .error .argsValueError
  else .ok (.dict args_new)

/-- The treatment of one whole specification by `_td_wrap_array_str`: a
non-list is passed through untouched with the state unchanged
(`if not isinstance(H, list): H_new = H`, lines 184-185 and 199-200), a list
is rewritten element-wise. -/
def wrapSpec (times : List Int) (st : WrapState) (x : PyVal) :
    Except WrapError (PyVal × WrapState) :=
  match x with
  | .list xs =>
    match wrapPass times st xs with
    | .error err => .error err
    | .ok (ys, st') => .ok (.list ys, st')
  | _ => .ok (x, st)

/-- `_td_wrap_array_str(H, c_ops, args, times)` (lines 174-223): rewrite the
Hamiltonian specification starting from `n = 0` and an empty `args_new`, then
the collapse specification with the same threaded state, then merge `args`. -/
def tdWrapArrayStr (H c_ops args : PyVal) (times : List Int) :
    Except WrapError (PyVal × PyVal × PyVal) :=
  match wrapSpec times ⟨0, []⟩ H with
  | .error err => .error err
  | .ok (H_new, st1) =>
    match wrapSpec times st1 c_ops with
    | .error err => .error err
    | .ok (c_new, st2) =>
      match mergeArgs st2.args_new args with
      | .error err => .error err
      | .ok a => .ok (H_new, c_new, a)

/-! ## Derived predicates on specifications -/

/-- A list element that the classifier loops accept: anything that is not a
list is accepted (a `Qobj` is partitioned, the rest silently skipped), and a
list is accepted exactly when it is a well-formed `[Qobj, descriptor]` pair. -/
def elemShapeOk : PyVal → Bool
  | .list l =>
    match l with
    | [.qobj _, .func _ _] => true
    | [.qobj _, .str _] => true
    | [.qobj _, .ndarray _] => true
    | _ => false
  | _ => true

/-- The sample list of an array-encoded term, i.e. of a list `e` with
`e[1]` an `ndarray` — the shape the normalizer rewrites. -/
def payloadOf : PyVal → Option (List Int)
  | .list l =>
    match l.get? 1 with
    | some (.ndarray a) => some a
    | _ => none
  | _ => none

/-- All array payloads of a specification list, in order. -/
def arrayPayloads (xs : List PyVal) : List (List Int) := xs.filterMap payloadOf

/-- Whether a term is array-encoded (`isinstance(e, list) and
isinstance(e[1], np.ndarray)` with the index in range). -/
def isArrayTerm (e : PyVal) : Bool := (payloadOf e).isSome

/-- Whether a whole specification contains an array-encoded term. -/
def hasArrayTerm : PyVal → Bool
  | .list xs => xs.any isArrayTerm
  | _ => false

/-- Terms on which `wrapTerm` is the identity: non-lists, and lists whose
second element exists and is not an array. -/
def wrapInert : PyVal → Bool
  | .list l =>
    match l.get? 1 with
    | some (.ndarray _) => false
    | some _ => true
    | none => false
  | _ => true

/-- The keys of an association-list dict. -/
def keysOf (l : List (String × PyVal)) : List String := l.map Prod.fst

/-- The dict of parameters synthesized for the payloads `L`, the counter
starting at `n`: consecutive `_td_array_<i>` names bound to the arrays. -/
def synthEntries : Nat → List (List Int) → List (String × PyVal)
  | _, [] => []
  | n, a :: rest => (tdName n, .ndarray a) :: synthEntries (n + 1) rest

/-- Representation invariant of a caller-supplied `args`: if it is a dict,
its keys are distinct (true of every Python dict). -/
def argsWF (args : PyVal) : Prop :=
  ∀ d, args = .dict d → (keysOf d).Nodup

/-- All names `_td_array_<i>` with `i ≥ n` are absent from `A` — the
invariant that makes each synthesized dict assignment a fresh append. -/
def keysFresh (n : Nat) (A : List (String × PyVal)) : Prop :=
  ∀ i, n ≤ i → tdName i ∉ keysOf A

/-! ## Injectivity of `Nat.repr`

Needed to know the synthesized names `_td_array_<n>` are pairwise distinct.
`Nat.toDigitsCore` is fuel-indexed, so we first align it with a structurally
transparent digit function. -/

/-- The decimal digit characters of `n`, most significant first. -/
def decDigits (n : Nat) : List Char :=
  if h : n < 10 then [Nat.digitChar n]
  else decDigits (n / 10) ++ [Nat.digitChar (n % 10)]
decreasing_by exact Nat.div_lt_self (by omega) (by omega)

theorem decDigits_eq (n : Nat) :
    decDigits n = if n < 10 then [Nat.digitChar n]
      else decDigits (n / 10) ++ [Nat.digitChar (n % 10)] := by
  rw [decDigits]
  split <;> rfl

theorem decDigits_ne_nil (n : Nat) : decDigits n ≠ [] := by
  rw [decDigits_eq]
  split <;> simp

theorem toDigitsCore_eq_decDigits :
    ∀ (fuel n : Nat) (acc : List Char), n < fuel →
      Nat.toDigitsCore 10 fuel n acc = decDigits n ++ acc := by
  intro fuel
  induction fuel with
  | zero => omega
  | succ f ih =>
    intro n acc h
    show (if n / 10 = 0 then Nat.digitChar (n % 10) :: acc
      else Nat.toDigitsCore 10 f (n / 10) (Nat.digitChar (n % 10) :: acc))
      = decDigits n ++ acc
    rcases Nat.lt_or_ge n 10 with hn | hn
    · have h10 : n / 10 = 0 := Nat.div_eq_of_lt hn
      rw [if_pos h10, decDigits_eq, if_pos hn, Nat.mod_eq_of_lt hn]
      rfl
    · have h10 : n / 10 ≠ 0 := by
        intro h0
        have := (Nat.div_eq_zero_iff (by omega)).mp h0
        omega
      rw [if_neg h10]
      have hdivlt : n / 10 < f := by
        have h1 : n / 10 < n := Nat.div_lt_self (by omega) (by omega)
        omega
      rw [ih (n / 10) (Nat.digitChar (n % 10) :: acc) hdivlt]
      conv_rhs => rw [decDigits_eq, if_neg (by omega : ¬ n < 10)]
      simp

theorem digitChar_inj_lt : ∀ a, a < 10 → ∀ b, b < 10 →
    Nat.digitChar a = Nat.digitChar b → a = b := by decide

theorem decDigits_inj : ∀ m n : Nat, decDigits m = decDigits n → m = n := by
  intro m
  induction m using Nat.strong_induction_on with
  | _ m ih =>
    intro n h
    rw [decDigits_eq m, decDigits_eq n] at h
    rcases Nat.lt_or_ge m 10 with hm | hm <;> rcases Nat.lt_or_ge n 10 with hn | hn
    · rw [if_pos hm, if_pos hn] at h
      simp only [List.cons.injEq] at h
      exact digitChar_inj_lt m hm n hn h.1
    · rw [if_pos hm, if_neg (by omega)] at h
      have hlen := congrArg List.length h
      simp [List.length_append] at hlen
      exact absurd hlen (decDigits_ne_nil (n / 10))
    · rw [if_neg (by omega), if_pos hn] at h
      have hlen := congrArg List.length h
      simp [List.length_append] at hlen
      exact absurd hlen (decDigits_ne_nil (m / 10))
    · rw [if_neg (by omega), if_neg (by omega)] at h
      have hparts := List.append_inj' h (by simp)
      have hdivs : m / 10 = n / 10 :=
        ih (m / 10) (Nat.div_lt_self (by omega) (by omega)) (n / 10) hparts.1
      have hmods : m % 10 = n % 10 := by
        have hc : Nat.digitChar (m % 10) = Nat.digitChar (n % 10) := by
          simpa using hparts.2
        exact digitChar_inj_lt (m % 10) (Nat.mod_lt m (by omega)) (n % 10)
          (Nat.mod_lt n (by omega)) hc
      have h1 := Nat.div_add_mod m 10
      have h2 := Nat.div_add_mod n 10
      omega

theorem repr_eq_decDigits (n : Nat) : Nat.repr n = (decDigits n).asString := by
  show (Nat.toDigits 10 n).asString = (decDigits n).asString
  rw [Nat.toDigits, toDigitsCore_eq_decDigits (n + 1) n [] (Nat.lt_succ_self n),
    List.append_nil]

theorem natRepr_inj (m n : Nat) (h : Nat.repr m = Nat.repr n) : m = n := by
  rw [repr_eq_decDigits, repr_eq_decDigits] at h
  exact decDigits_inj m n (congrArg String.data h)

theorem tdName_inj (m n : Nat) (h : tdName m = tdName n) : m = n := by
  have hd : ("_td_array_".data ++ (Nat.repr m).data)
      = ("_td_array_".data ++ (Nat.repr n).data) := by
    have := congrArg String.data h
    simpa [tdName] using this
  exact natRepr_inj m n (String.ext (List.append_cancel_left hd))

/-! ## Association-list dict lemmas -/

theorem keysOf_cons (kv : String × PyVal) (rest : List (String × PyVal)) :
    keysOf (kv :: rest) = kv.1 :: keysOf rest := rfl

theorem dictInsert_of_not_mem : ∀ (A : List (String × PyVal)) (k : String) (v : PyVal),
    k ∉ keysOf A → dictInsert A k v = A ++ [(k, v)]
  | [], _, _, _ => rfl
  | (k', v') :: rest, k, v, h => by
    rw [keysOf_cons, List.mem_cons] at h
    push_neg at h
    have hk : ¬ k' = k := fun he => h.1 he.symm
    simp only [dictInsert, if_neg hk, dictInsert_of_not_mem rest k v h.2, List.cons_append]

theorem keysOf_append (A B : List (String × PyVal)) :
    keysOf (A ++ B) = keysOf A ++ keysOf B := List.map_append _ _ _

theorem keysOf_dictInsert (A : List (String × PyVal)) (k : String) (v : PyVal) :
    keysOf (dictInsert A k v) =
      if k ∈ keysOf A then keysOf A else keysOf A ++ [k] := by
  induction A with
  | nil => rfl
  | cons kv rest ih =>
    rcases kv with ⟨k0, v0⟩
    by_cases hk : k0 = k
    · subst hk
      simp [dictInsert, keysOf_cons, keysOf]
    · have hstep : dictInsert ((k0, v0) :: rest) k v = (k0, v0) :: dictInsert rest k v := by
        simp [dictInsert, hk]
      rw [hstep, keysOf_cons, keysOf_cons, ih]
      by_cases hm : k ∈ keysOf rest
      · rw [if_pos hm, if_pos (List.mem_cons_of_mem _ hm)]
      · rw [if_neg hm, if_neg (show ¬ k ∈ (k0, v0).1 :: keysOf rest from by
          rw [List.mem_cons]
          push_neg
          exact ⟨fun he => hk he.symm, hm⟩)]
        simp

theorem nodup_keysOf_dictInsert (A : List (String × PyVal)) (k : String) (v : PyVal)
    (h : (keysOf A).Nodup) : (keysOf (dictInsert A k v)).Nodup := by
  rw [keysOf_dictInsert]
  by_cases hm : k ∈ keysOf A
  · simpa [hm] using h
  · simp only [if_neg hm]
    rw [← List.concat_eq_append]
    exact h.concat hm

theorem nodup_keysOf_dictUpdate (d : List (String × PyVal)) :
    ∀ A, (keysOf A).Nodup → (keysOf (dictUpdate A d)).Nodup := by
  induction d with
  | nil => intro A h; exact h
  | cons kv rest ih =>
    intro A h
    exact ih (dictInsert A kv.1 kv.2) (nodup_keysOf_dictInsert A kv.1 kv.2 h)

theorem dictUpdate_of_disjoint (d : List (String × PyVal)) :
    ∀ A, (∀ k ∈ keysOf d, k ∉ keysOf A) → (keysOf d).Nodup →
      dictUpdate A d = A ++ d := by
  induction d with
  | nil => intro A _ _; simp [dictUpdate]
  | cons kv rest ih =>
    intro A hdisj hnd
    rw [keysOf_cons] at hnd
    have h1 : kv.1 ∉ keysOf A := hdisj kv.1 (by rw [keysOf_cons]; exact List.mem_cons_self _ _)
    show dictUpdate (dictInsert A kv.1 kv.2) rest = A ++ kv :: rest
    rw [dictInsert_of_not_mem A kv.1 kv.2 h1]
    rw [ih (A ++ [(kv.1, kv.2)]) ?_ (List.nodup_cons.mp hnd).2]
    · simp
    · intro k hk
      have hkne : k ≠ kv.1 := by
        intro he
        exact (List.nodup_cons.mp hnd).1 (he ▸ hk)
      have hkA : k ∉ keysOf A := hdisj k (by rw [keysOf_cons]; exact List.mem_cons_of_mem _ hk)
      intro hmem
      rw [keysOf_append, List.mem_append] at hmem
      rcases hmem with hc | hc
      · exact hkA hc
      · simp [keysOf] at hc
        exact hkne hc

theorem dictUpdate_nil (d : List (String × PyVal)) (h : (keysOf d).Nodup) :
    dictUpdate [] d = d := by
  simpa using dictUpdate_of_disjoint d [] (by simp [keysOf]) h

theorem dictGet?_eq_none_of_not_mem : ∀ (l : List (String × PyVal)) (k : String),
    k ∉ keysOf l → dictGet? l k = none
  | [], _, _ => rfl
  | (k', v') :: rest, k, h => by
    rw [keysOf_cons, List.mem_cons] at h
    push_neg at h
    simp only [dictGet?, if_neg (fun he : k' = k => h.1 he.symm)]
    exact dictGet?_eq_none_of_not_mem rest k h.2

theorem dictGet?_dictInsert_self : ∀ (A : List (String × PyVal)) (k : String) (v : PyVal),
    dictGet? (dictInsert A k v) k = some v
  | [], k, v => by simp [dictInsert, dictGet?]
  | (k', v') :: rest, k, v => by
    by_cases hk : k' = k
    · simp [dictInsert, hk, dictGet?]
    · simp only [dictInsert, if_neg hk, dictGet?, if_neg hk]
      exact dictGet?_dictInsert_self rest k v

theorem dictGet?_dictInsert_other : ∀ (A : List (String × PyVal)) (k k' : String) (v : PyVal),
    k' ≠ k → dictGet? (dictInsert A k v) k' = dictGet? A k'
  | [], k, k', v, h => by simp [dictInsert, dictGet?, Ne.symm h]
  | (k0, v0) :: rest, k, k', v, h => by
    by_cases hk : k0 = k
    · subst hk
      simp [dictInsert, dictGet?, Ne.symm h]
    · simp only [dictInsert, if_neg hk, dictGet?]
      by_cases h0 : k0 = k'
      · simp [h0]
      · simp only [if_neg h0]
        exact dictGet?_dictInsert_other rest k k' v h

theorem dictGet?_dictUpdate (d : List (String × PyVal)) :
    ∀ (A : List (String × PyVal)) (k : String), (keysOf d).Nodup →
      dictGet? (dictUpdate A d) k =
        match dictGet? d k with
        | some v => some v
        | none => dictGet? A k := by
  induction d with
  | nil => intro A k _; rfl
  | cons kv rest ih =>
    intro A k hnd
    rw [keysOf_cons] at hnd
    show dictGet? (dictUpdate (dictInsert A kv.1 kv.2) rest) k = _
    rw [ih (dictInsert A kv.1 kv.2) k (List.nodup_cons.mp hnd).2]
    by_cases hk : kv.1 = k
    · subst hk
      have hrest : dictGet? rest kv.1 = none :=
        dictGet?_eq_none_of_not_mem rest kv.1
          (by
            intro hm
            exact (List.nodup_cons.mp hnd).1 (by simpa [keysOf] using hm))
      simp [dictGet?, hrest, dictGet?_dictInsert_self]
    · simp only [dictGet?, if_neg hk]
      cases hr : dictGet? rest k
      · simp [dictGet?_dictInsert_other A kv.1 k kv.2 (fun he => hk he.symm)]
      · rfl

/-! ## Shape lemmas for the classifier loops -/

theorem elemStep_ok_of_shapeOk (err : ClassifyError) (p : TdPartition) (k : Nat)
    (e : PyVal) (h : elemShapeOk e = true) : ∃ p', elemStep err p k e = .ok p' := by
  cases e
  case list l =>
    rcases l with _ | ⟨a, _ | ⟨b, _ | ⟨c, rest⟩⟩⟩
    · simp [elemShapeOk] at h
    · cases a <;> simp [elemShapeOk] at h
    · cases a <;> cases b <;> simp [elemShapeOk] at h <;> exact ⟨_, rfl⟩
    · cases a <;> cases b <;> simp [elemShapeOk] at h
  all_goals exact ⟨_, rfl⟩

theorem elemStep_error_of_not_shapeOk (err : ClassifyError) (p : TdPartition) (k : Nat)
    (e : PyVal) (h : elemShapeOk e = false) : elemStep err p k e = .error err := by
  cases e
  case list l =>
    rcases l with _ | ⟨a, _ | ⟨b, _ | ⟨c, rest⟩⟩⟩
    · rfl
    · cases a <;> rfl
    · cases a <;> cases b <;> simp [elemShapeOk] at h <;> rfl
    · cases a <;> cases b <;> rfl
  all_goals simp [elemShapeOk] at h

theorem partitionGo_ok_shape (err : ClassifyError) :
    ∀ (xs : List PyVal) (k : Nat) (p p' : TdPartition),
      partitionGo err k p xs = .ok p' → ∀ e ∈ xs, elemShapeOk e = true := by
  intro xs
  induction xs with
  | nil => intro k p p' _ e he; exact absurd he (List.not_mem_nil e)
  | cons a rest ih =>
    intro k p p' hgo e he
    by_cases hs : elemShapeOk a = true
    · rcases List.mem_cons.mp he with rfl | hm
      · exact hs
      · obtain ⟨pa, hpa⟩ := elemStep_ok_of_shapeOk err p k a hs
        rw [show partitionGo err k p (a :: rest)
            = partitionGo err (k + 1) pa rest from by
          simp [partitionGo, hpa]] at hgo
        exact ih (k + 1) pa p' hgo e hm
    · rw [show partitionGo err k p (a :: rest) = .error err from by
        simp [partitionGo,
          elemStep_error_of_not_shapeOk err p k a (Bool.not_eq_true _ ▸ hs)]] at hgo
      exact absurd hgo (by simp)

theorem partitionGo_error_iff (err : ClassifyError) :
    ∀ (xs : List PyVal) (k : Nat) (p : TdPartition),
      (∃ err', partitionGo err k p xs = .error err') ↔
        ∃ e ∈ xs, elemShapeOk e = false := by
  intro xs
  induction xs with
  | nil =>
    intro k p
    constructor
    · intro ⟨err', h⟩; exact absurd h (by simp [partitionGo])
    · intro ⟨e, he, _⟩; exact absurd he (List.not_mem_nil e)
  | cons a rest ih =>
    intro k p
    by_cases hs : elemShapeOk a = true
    · obtain ⟨pa, hpa⟩ := elemStep_ok_of_shapeOk err p k a hs
      have hstep : partitionGo err k p (a :: rest) = partitionGo err (k + 1) pa rest := by
        simp [partitionGo, hpa]
      rw [hstep]
      constructor
      · intro h
        obtain ⟨e, he, hbad⟩ := (ih (k + 1) pa).mp h
        exact ⟨e, List.mem_cons_of_mem _ he, hbad⟩
      · intro ⟨e, he, hbad⟩
        rcases List.mem_cons.mp he with rfl | hm
        · rw [hs] at hbad; exact absurd hbad (by simp)
        · exact (ih (k + 1) pa).mpr ⟨e, hm, hbad⟩
    · have hbad : elemShapeOk a = false := Bool.not_eq_true _ ▸ hs
      have hstep : partitionGo err k p (a :: rest) = .error err := by
        simp [partitionGo, elemStep_error_of_not_shapeOk err p k a hbad]
      rw [hstep]
      constructor
      · intro _; exact ⟨a, List.mem_cons_self a rest, hbad⟩
      · intro _; exact ⟨err, rfl⟩

/-! ## Lemmas on the normalizer passes -/

theorem wrapTerm_of_inert (t : List Int) (st : WrapState) (e : PyVal)
    (h : wrapInert e = true) : wrapTerm t st e = .ok (e, st) := by
  cases e <;> try rfl
  case list l =>
    simp only [wrapInert] at h
    cases hg : l.get? 1 with
    | none => rw [hg] at h; simp at h
    | some x =>
      rw [hg] at h
      cases x <;> simp only [wrapTerm, hg] <;> first | rfl | simp at h

theorem wrapTerm_ok_cases (t : List Int) (st : WrapState) (e e' : PyVal) (st' : WrapState)
    (h : wrapTerm t st e = .ok (e', st')) :
    (payloadOf e = none ∧ e' = e ∧ st' = st) ∨
    (∃ a op tEnd, payloadOf e = some a ∧ e = .list [op, .ndarray a] ∧
      t.getLast? = some tEnd ∧
      e' = .list [op, .str (tdStr tEnd (tdName st.n) (t.length - 1))] ∧
      st' = ⟨st.n + 1, dictInsert st.args_new (tdName st.n) (.ndarray a)⟩) := by
  cases e
  case list l =>
    rcases l with _ | ⟨a0, _ | ⟨a1, rest⟩⟩
    · exact absurd h (by simp [wrapTerm])
    · exact absurd h (by simp [wrapTerm])
    · cases a1
      case ndarray arr =>
        rcases rest with _ | ⟨a2, rest'⟩
        · cases ht : t.getLast? with
          | none => exact absurd h (by simp [wrapTerm, ht])
          | some tEnd =>
            simp [wrapTerm, ht] at h
            obtain ⟨h1, h2⟩ := h
            subst h1
            subst h2
            exact Or.inr ⟨arr, a0, tEnd, rfl, rfl, rfl, rfl, rfl⟩
        · exact absurd h (by simp [wrapTerm])
      all_goals
        simp [wrapTerm] at h
        obtain ⟨h1, h2⟩ := h
        subst h1
        subst h2
        exact Or.inl ⟨rfl, rfl, rfl⟩
  all_goals
    simp [wrapTerm] at h
    obtain ⟨h1, h2⟩ := h
    subst h1
    subst h2
    exact Or.inl ⟨rfl, rfl, rfl⟩

theorem inert_of_shapeOk_payload_none (e : PyVal) (hs : elemShapeOk e = true)
    (hp : payloadOf e = none) : wrapInert e = true := by
  cases e <;> try rfl
  case list l =>
    rcases l with _ | ⟨a, _ | ⟨b, _ | ⟨c, rest⟩⟩⟩
    · simp [elemShapeOk] at hs
    · cases a <;> simp [elemShapeOk] at hs
    · cases a <;> cases b <;> simp [elemShapeOk] at hs <;>
        first
          | rfl
          | simp [payloadOf] at hp
    · cases a <;> cases b <;> simp [elemShapeOk] at hs

theorem inert_of_rewritten (op : PyVal) (s : String) :
    wrapInert (.list [op, .str s]) = true := rfl

theorem wrapPass_of_inert (t : List Int) : ∀ (xs : List PyVal) (st : WrapState),
    (∀ e ∈ xs, wrapInert e = true) → wrapPass t st xs = .ok (xs, st) := by
  intro xs
  induction xs with
  | nil => intro st _; rfl
  | cons a rest ih =>
    intro st hall
    have ha := wrapTerm_of_inert t st a (hall a (List.mem_cons_self a rest))
    have hrest := ih st (fun e he => hall e (List.mem_cons_of_mem a he))
    simp [wrapPass, ha, hrest]

theorem wrapPass_out_inert (t : List Int) : ∀ (xs ys : List PyVal) (st st' : WrapState),
    (∀ e ∈ xs, elemShapeOk e = true) → wrapPass t st xs = .ok (ys, st') →
      ∀ e' ∈ ys, wrapInert e' = true := by
  intro xs
  induction xs with
  | nil =>
    intro ys st st' _ hpass e' he'
    simp [wrapPass] at hpass
    rw [hpass.1] at he'
    exact absurd he' (List.not_mem_nil e')
  | cons a rest ih =>
    intro ys st st' hall hpass e' he'
    cases hw : wrapTerm t st a with
    | error err => simp [wrapPass, hw] at hpass
    | ok res =>
      obtain ⟨a', st1⟩ := res
      cases hr : wrapPass t st1 rest with
      | error err => simp [wrapPass, hw, hr] at hpass
      | ok res2 =>
        obtain ⟨ys', st2⟩ := res2
        simp only [wrapPass, hw, hr, Except.ok.injEq, Prod.mk.injEq] at hpass
        obtain ⟨hys, hst⟩ := hpass
        rw [← hys] at he'
        rcases List.mem_cons.mp he' with rfl | hm
        · rcases wrapTerm_ok_cases t st a e' st1 hw with ⟨hnone, he, _⟩ | ⟨arr, op, tEnd, _, _, _, he, _⟩
          · rw [he]
            exact inert_of_shapeOk_payload_none a (hall a (List.mem_cons_self a rest)) hnone
          · rw [he]
            exact inert_of_rewritten op _
        · exact ih ys' st1 st2 (fun e he => hall e (List.mem_cons_of_mem a he)) hr e' hm

theorem arrayPayloads_cons_none (e : PyVal) (rest : List PyVal) (h : payloadOf e = none) :
    arrayPayloads (e :: rest) = arrayPayloads rest := by
  simp [arrayPayloads, List.filterMap_cons, h]

theorem arrayPayloads_cons_some (e : PyVal) (rest : List PyVal) (a : List Int)
    (h : payloadOf e = some a) :
    arrayPayloads (e :: rest) = a :: arrayPayloads rest := by
  simp [arrayPayloads, List.filterMap_cons, h]

theorem synthEntries_append (L1 L2 : List (List Int)) : ∀ n,
    synthEntries n (L1 ++ L2) = synthEntries n L1 ++ synthEntries (n + L1.length) L2 := by
  induction L1 with
  | nil => intro n; simp [synthEntries]
  | cons a rest ih =>
    intro n
    have h1 : synthEntries n (a :: (rest ++ L2))
        = (tdName n, PyVal.ndarray a) :: synthEntries (n + 1) (rest ++ L2) := rfl
    have h2 : synthEntries n (a :: rest)
        = (tdName n, PyVal.ndarray a) :: synthEntries (n + 1) rest := rfl
    rw [List.cons_append, h1, h2, ih (n + 1), List.cons_append]
    rw [show n + (a :: rest).length = n + 1 + rest.length from by
      simp only [List.length_cons]
      omega]

theorem mem_keysOf_synthEntries : ∀ (L : List (List Int)) (j : Nat) (s : String),
    s ∈ keysOf (synthEntries j L) → ∃ i, j ≤ i ∧ i < j + L.length ∧ s = tdName i := by
  intro L
  induction L with
  | nil => intro j s hs; simp [synthEntries, keysOf] at hs
  | cons a rest ih =>
    intro j s hs
    rw [synthEntries, keysOf_cons] at hs
    rcases List.mem_cons.mp hs with rfl | hm
    · exact ⟨j, le_refl j, by simp, rfl⟩
    · obtain ⟨i, hi, hub, hsi⟩ := ih (j + 1) s hm
      refine ⟨i, by omega, by simp only [List.length_cons]; omega, hsi⟩

theorem nodup_keysOf_synthEntries : ∀ (L : List (List Int)) (j : Nat),
    (keysOf (synthEntries j L)).Nodup := by
  intro L
  induction L with
  | nil => intro j; simp [synthEntries, keysOf]
  | cons a rest ih =>
    intro j
    rw [synthEntries, keysOf_cons]
    refine List.nodup_cons.mpr ⟨?_, ih (j + 1)⟩
    intro hm
    obtain ⟨i, hi, _, hsi⟩ := mem_keysOf_synthEntries rest (j + 1) (tdName j) hm
    have := tdName_inj j i hsi
    omega

theorem keysFresh_nil (n : Nat) : keysFresh n [] := by
  intro i _ hm
  simp [keysOf] at hm

theorem wrapPass_args (t : List Int) : ∀ (xs ys : List PyVal) (st st' : WrapState),
    keysFresh st.n st.args_new → wrapPass t st xs = .ok (ys, st') →
      st'.args_new = st.args_new ++ synthEntries st.n (arrayPayloads xs) ∧
      st'.n = st.n + (arrayPayloads xs).length := by
  intro xs
  induction xs with
  | nil =>
    intro ys st st' _ hpass
    simp [wrapPass] at hpass
    rw [← hpass.2]
    simp [arrayPayloads, synthEntries]
  | cons a rest ih =>
    intro ys st st' hfresh hpass
    cases hw : wrapTerm t st a with
    | error err => simp [wrapPass, hw] at hpass
    | ok res =>
      obtain ⟨a', st1⟩ := res
      cases hr : wrapPass t st1 rest with
      | error err => simp [wrapPass, hw, hr] at hpass
      | ok res2 =>
        obtain ⟨ys', st2⟩ := res2
        simp only [wrapPass, hw, hr, Except.ok.injEq, Prod.mk.injEq] at hpass
        obtain ⟨hys, hst⟩ := hpass
        subst hst
        rcases wrapTerm_ok_cases t st a a' st1 hw with
          ⟨hnone, _, hsame⟩ | ⟨arr, op, tEnd, hsome, _, _, _, hstate⟩
        · subst hsame
          obtain ⟨e1, e2⟩ := ih ys' st1 st2 hfresh hr
          rw [arrayPayloads_cons_none a rest hnone]
          exact ⟨e1, e2⟩
        · have hins : dictInsert st.args_new (tdName st.n) (.ndarray arr)
              = st.args_new ++ [(tdName st.n, .ndarray arr)] :=
            dictInsert_of_not_mem _ _ _ (hfresh st.n (le_refl _))
          have hfresh1 : keysFresh st1.n st1.args_new := by
            rw [hstate]
            show keysFresh (st.n + 1)
              (dictInsert st.args_new (tdName st.n) (PyVal.ndarray arr))
            intro i hi hm
            rw [hins, keysOf_append, List.mem_append] at hm
            rcases hm with hc | hc
            · exact hfresh i (by omega) hc
            · simp [keysOf] at hc
              have := tdName_inj i st.n hc
              omega
          obtain ⟨e1, e2⟩ := ih ys' st1 st2 hfresh1 hr
          rw [arrayPayloads_cons_some a rest arr hsome]
          constructor
          · rw [e1, hstate]
            show dictInsert st.args_new (tdName st.n) (PyVal.ndarray arr) ++
                synthEntries (st.n + 1) (arrayPayloads rest)
              = st.args_new ++ synthEntries st.n (arr :: arrayPayloads rest)
            rw [hins, List.append_assoc]
            rfl
          · rw [e2, hstate]
            show st.n + 1 + (arrayPayloads rest).length
              = st.n + (arr :: arrayPayloads rest).length
            simp only [List.length_cons]
            omega

/-! ## Helper lemmas on the top-level functions -/

theorem keysFresh_synthEntries (L : List (List Int)) :
    keysFresh L.length (synthEntries 0 L) := by
  intro i hi hm
  obtain ⟨j, _, hub, hj⟩ := mem_keysOf_synthEntries L 0 (tdName i) hm
  have := tdName_inj i j hj
  omega

theorem not_arrayTerm_of_inert (e : PyVal) (h : wrapInert e = true) :
    isArrayTerm e = false := by
  cases e <;> try rfl
  case list l =>
    simp only [wrapInert] at h
    simp only [isArrayTerm, payloadOf]
    cases hg : l.get? 1 with
    | none => simp
    | some x =>
      rw [hg] at h
      cases x <;> simp_all

theorem mergeArgs_falsy (A : List (String × PyVal)) (args : PyVal)
    (h : truthy args = false) : mergeArgs A args = .ok (.dict A) := by
  simp [mergeArgs, h]

theorem mergeArgs_dict (A d : List (String × PyVal)) (h : truthy (.dict d) = true) :
    mergeArgs A (.dict d) = .ok (.dict (dictUpdate A d)) := by
  simp [mergeArgs, h]

theorem mergeArgs_other_empty (args : PyVal) (h : truthy args = true)
    (hnd : ∀ d, args ≠ .dict d) : mergeArgs [] args = .ok args := by
  cases args <;> first
    | exact absurd rfl (hnd _)
    | simp [mergeArgs, h]

theorem mergeArgs_other_nonempty (A : List (String × PyVal)) (args : PyVal)
    (h : truthy args = true) (hnd : ∀ d, args ≠ .dict d) (hA : A ≠ []) :
    mergeArgs A args = .error .argsValueError := by
  have hA' : A.isEmpty = false := by
    cases A
    · exact absurd rfl hA
    · rfl
  cases args <;> first
    | exact absurd rfl (hnd _)
    | simp [mergeArgs, h, hA']

theorem odeValidate_ok_parts (cy : Option String) (H c : PyVal) (hp cp : TdPartition)
    (h : odeValidate cy H c = .ok (hp, cp)) :
    hPartition H = .ok hp ∧ cPartition c = .ok cp := by
  cases hH : hPartition H with
  | error e => simp [odeValidate, hH] at h
  | ok hp0 =>
    cases hc : cPartition c with
    | error e => simp [odeValidate, hH, hc] at h
    | ok cp0 =>
      simp only [odeValidate, hH, hc] at h
      split at h
      · simp at h
      · split at h
        · cases hcy : cythonCheck cy with
          | error e => rw [hcy] at h; simp at h
          | ok u =>
            rw [hcy] at h
            simp at h
            obtain ⟨rfl, rfl⟩ := h
            exact ⟨rfl, rfl⟩
        · simp at h
          obtain ⟨rfl, rfl⟩ := h
          exact ⟨rfl, rfl⟩

theorem cythonCheck_ne_mixed (cy : Option String) :
    ∀ e, cythonCheck cy = .error e → e ≠ .mixedEncoding := by
  intro e h
  cases cy with
  | none => simp [cythonCheck] at h; simp [← h]
  | some v =>
    simp only [cythonCheck] at h
    split at h
    · simp at h; simp [← h]
    · simp at h

theorem mcTimeType_ne_mixed (H : PyVal) (hp cp : TdPartition) :
    ∀ e, mcTimeType H hp cp = .error e → e ≠ .mixedEncoding := by
  intro e h
  unfold mcTimeType at h
  split at h
  · simp at h
  split at h
  · simp at h
  split at h
  · split at h
    · simp at h
    split at h
    · simp at h
    · simp at h; simp [← h]
  split at h
  · split at h
    · simp at h
    split at h
    · simp at h
    · simp at h; simp [← h]
  split at h
  · split at h
    · simp at h
    split at h
    · simp at h
    · simp at h; simp [← h]
  · simp at h; simp [← h]

theorem odeValidate_mixed_iff (cy : Option String) (H c : PyVal) (hp cp : TdPartition)
    (hH : hPartition H = .ok hp) (hc : cPartition c = .ok cp) :
    odeValidate cy H c = .error .mixedEncoding ↔
      ((hp.strs.length > 0 ∧ hp.func.length > 0) ∨
        (cp.strs.length > 0 ∧ cp.func.length > 0)) := by
  simp only [odeValidate, hH, hc]
  by_cases hmix : (hp.strs.length > 0 ∧ hp.func.length > 0) ∨
      (cp.strs.length > 0 ∧ cp.func.length > 0)
  · simp [hmix]
  · rw [if_neg hmix]
    constructor
    · intro h
      split at h
      · cases hcy : cythonCheck cy with
        | error e =>
          rw [hcy] at h
          simp at h
          exact absurd h.symm (Ne.symm (cythonCheck_ne_mixed cy e hcy))
        | ok u => rw [hcy] at h; simp at h
      · simp at h
    · intro hx
      exact absurd hx hmix

theorem elemStep_error_val (err : ClassifyError) (p : TdPartition) (k : Nat) (e : PyVal)
    (err' : ClassifyError) (h : elemStep err p k e = .error err') : err' = err := by
  by_cases hs : elemShapeOk e = true
  · obtain ⟨p', hp⟩ := elemStep_ok_of_shapeOk err p k e hs
    rw [hp] at h
    exact absurd h (by simp)
  · rw [elemStep_error_of_not_shapeOk err p k e (Bool.not_eq_true _ ▸ hs)] at h
    injection h with h1
    exact h1.symm

theorem partitionGo_error_val (err : ClassifyError) :
    ∀ (xs : List PyVal) (k : Nat) (p : TdPartition) (err' : ClassifyError),
      partitionGo err k p xs = .error err' → err' = err := by
  intro xs
  induction xs with
  | nil => intro k p err' h; simp [partitionGo] at h
  | cons a rest ih =>
    intro k p err' h
    cases hs : elemStep err p k a with
    | error e2 =>
      rw [partitionGo, hs] at h
      injection h with h1
      rw [← h1]
      exact elemStep_error_val err p k a e2 hs
    | ok p2 =>
      rw [partitionGo, hs] at h
      exact ih (k + 1) p2 err' h

/-! ## The claims -/

/-- **C1** (corrected).  The claim says the classifier fails with
`MalformedSpecification` whenever a list element is neither a bare operator
token nor a well-formed `(token, descriptor)` pair, *including elements of
entirely different kinds (a bare string or number in the list)*.  That last
part is false: the element loops are `if Qobj / elif list` with no `else`
(`c1_counterexample`), so such elements are silently skipped.  Amended claim,
proved here: (1) the element scan of either list fails — with that list's
`MalformedSpecification` error — **iff** some element is itself a list that is
not a well-formed two-element `[token, descriptor]` pair; (2) an element that
is neither an operator token nor a list is accepted and put in no partition
(the partition state is returned unchanged). -/
theorem c1_amended_theorem :
    (∀ (xs : List PyVal),
      (hPartition (.list xs) = .error .malformedH ↔ ∃ e ∈ xs, elemShapeOk e = false)
      ∧ (cPartition (.list xs) = .error .malformedC ↔ ∃ e ∈ xs, elemShapeOk e = false))
    ∧ (∀ (err : ClassifyError) (p : TdPartition) (k : Nat) (e : PyVal),
      e.isList = false → e.isQobj = false → elemStep err p k e = .ok p) := by
  constructor
  · intro xs
    have key : ∀ err : ClassifyError,
        partitionGo err 0 ⟨[], [], []⟩ xs = .error err ↔
          ∃ e ∈ xs, elemShapeOk e = false := by
      intro err
      constructor
      · intro h
        exact (partitionGo_error_iff err xs 0 ⟨[], [], []⟩).mp ⟨err, h⟩
      · intro hex
        obtain ⟨err', h'⟩ := (partitionGo_error_iff err xs 0 ⟨[], [], []⟩).mpr hex
        rw [partitionGo_error_val err xs 0 ⟨[], [], []⟩ err' h'] at h'
        exact h'
    exact ⟨key .malformedH, key .malformedC⟩
  · intro err p k e hl hq
    cases e
    case qobj i => exact absurd hq (by simp [PyVal.isQobj])
    case list xs => exact absurd hl (by simp [PyVal.isList])
    all_goals rfl

/-- **C1** counterexample: a Hamiltonian list whose elements are a bare string
and a bare number.  The claim demands `MalformedSpecification`; the code
accepts the list, returning the `'me'` aggregate `(0, 0, 0)` with the two
elements in no partition. -/
theorem c1_counterexample :
    odeChecks none (.list [.str "x", .pyInt 5]) (.list []) "me"
      = .ok (some (.me 0 0 0)) := rfl

/-- Witness for `c1_amended_theorem` at a concrete input. -/
theorem c1_witness :
    (hPartition (.list [.str "x", .pyInt 5]) = .error .malformedH ↔
      ∃ e ∈ [PyVal.str "x", PyVal.pyInt 5], elemShapeOk e = false)
    ∧ elemStep .malformedH ⟨[], [], []⟩ 0 (.str "x") = .ok ⟨[], [], []⟩ :=
  ⟨(c1_amended_theorem.1 [.str "x", .pyInt 5]).1,
    c1_amended_theorem.2 .malformedH ⟨[], [], []⟩ 0 (.str "x") rfl rfl⟩

/-- **C2** (confirmed).  Once both lists pass shape validation, classification
fails with `MixedEncoding` **iff** a single list has both a callback term and
a string-or-array term; in particular the failure depends only on the two
partitions, so a mixed Hamiltonian fails whatever the (well-formed) collapse
list contains, and a purely cross-list mix does not trigger this error. -/
theorem c2_theorem (cy : Option String) (H c_ops : PyVal) (solver : String)
    (hp cp : TdPartition)
    (hH : hPartition H = .ok hp) (hc : cPartition c_ops = .ok cp) :
    odeChecks cy H c_ops solver = .error .mixedEncoding ↔
      ((hp.strs.length > 0 ∧ hp.func.length > 0) ∨
        (cp.strs.length > 0 ∧ cp.func.length > 0)) := by
  rw [← odeValidate_mixed_iff cy H c_ops hp cp hH hc]
  constructor
  · intro h
    cases hv : odeValidate cy H c_ops with
    | error e =>
      simp only [odeChecks, hv] at h
      simp at h
      rw [h]
    | ok p =>
      obtain ⟨hp', cp'⟩ := p
      simp only [odeChecks, hv] at h
      split at h
      · simp at h
      · split at h
        · cases hmc : mcTimeType H hp' cp' with
          | error e =>
            rw [hmc] at h
            simp at h
            exact absurd h (mcTimeType_ne_mixed H hp' cp' e hmc)
          | ok tt => rw [hmc] at h; simp at h
        · simp at h
  · intro hv
    simp only [odeChecks, hv]

/-- Witness for `c2_theorem`: a Hamiltonian with one callback and one string
term fails `MixedEncoding` with an empty collapse list. -/
theorem c2_witness :
    odeChecks none
      (.list [.list [.qobj 0, .func .function 0], .list [.qobj 1, .str "sin(t)"]])
      (.list []) "me" = .error .mixedEncoding ↔
      (((TdPartition.mk [] [0] [1]).strs.length > 0 ∧
        (TdPartition.mk [] [0] [1]).func.length > 0) ∨
       ((TdPartition.mk [] [] []).strs.length > 0 ∧
        (TdPartition.mk [] [] []).func.length > 0)) :=
  c2_theorem none
    (.list [.list [.qobj 0, .func .function 0], .list [.qobj 1, .str "sin(t)"]])
    (.list []) "me" ⟨[], [0], [1]⟩ ⟨[], [], []⟩ rfl rfl

/-- **C4** (corrected).  The claim says every whole-specification callback —
*including partially-applied callables* — gets detailed-mode time-type code 3.
False: line 137 tests `isinstance(H, FunctionType)` only, so a `partial` (or
builtin) passes validation (line 49) but falls into the constant branches of
the time-type chain (`c4_counterexample` shows code 0).  Amended claim, proved
here: when the whole Hamiltonian is a *plain function* callback and detailed
classification succeeds, the result is time-type 3 with an empty Hamiltonian
partition (no partition computation on the callback). -/
theorem c4_amended_theorem (cy : Option String) (i : Nat) (c_ops : PyVal)
    (r : Option SolverResult)
    (h : odeChecks cy (.func .function i) c_ops "mc" = .ok r) :
    ∃ cp, r = some (.mc 3 ⟨[], [], []⟩ cp) := by
  cases hv : odeValidate cy (.func .function i) c_ops with
  | error e => simp only [odeChecks, hv] at h; simp at h
  | ok p =>
    obtain ⟨hp, cp⟩ := p
    have hparts := odeValidate_ok_parts cy _ c_ops hp cp hv
    have h0 : Except.ok (TdPartition.mk [] [] []) = .ok hp := hparts.1
    injection h0 with h0
    subst h0
    have hmc : mcTimeType (.func .function i) ⟨[], [], []⟩ cp = .ok 3 := rfl
    simp only [odeChecks, hv, hmc] at h
    simp at h
    exact ⟨cp, h.symm⟩

/-- **C4** counterexample: a partially-applied callable as the whole
Hamiltonian with an empty collapse list classifies in detailed mode to
time-type 0 (the "time-independent" case), not 3 as the claim requires. -/
theorem c4_counterexample :
    odeChecks none (.func .partialFn 0) (.list []) "mc"
      = .ok (some (.mc 0 ⟨[], [], []⟩ ⟨[], [], []⟩)) := rfl

/-- Witness for `c4_amended_theorem` at a concrete input. -/
theorem c4_witness :
    ∃ cp, (some (SolverResult.mc 3 ⟨[], [], []⟩ ⟨[], [], []⟩) : Option SolverResult)
      = some (.mc 3 ⟨[], [], []⟩ cp) :=
  c4_amended_theorem none 0 (.list [])
    (some (.mc 3 ⟨[], [], []⟩ ⟨[], [], []⟩)) rfl

/-- **C8** (code_bug).  The claim says string/array encoding with a Cython
version below the minimum fails with a message distinguishing "capability
absent" from "capability too old".  The absent case does raise
`Exception("Unable to load Cython...")`, but on the too-old path the message
expression `"Cython version (%s) is too old. Upgrade to " + "version 0.14+"
% Cython.__version__` applies `%` to the second literal (precedence bug),
raising a `ValueError` about an invalid format specifier instead — no
version-distinguishing message is ever produced.  This theorem evaluates the
model at the failing input (string term present, Cython version `"0.10"`,
lexically below `"0.14"`): the result is the format `ValueError`, together
with the absent case and the no-check case for contrast. -/
theorem c8_theorem :
    odeChecks (some "0.10") (.list [.list [.qobj 0, .str "sin(t)"]]) (.list []) "me"
      = .error .versionFormatError
    ∧ odeChecks none (.list [.list [.qobj 0, .str "sin(t)"]]) (.list []) "me"
      = .error .cythonMissing
    ∧ odeChecks none (.list [.qobj 0]) (.list []) "me" = .ok (some (.me 1 0 0)) :=
  ⟨rfl, rfl, rfl⟩

/-- **C10** (confirmed).  For any solver string other than `'me'` and `'mc'`,
`_ode_checks` runs all of the validation (same shape, mixed-encoding and
Cython failures) and then falls off the end of the function: Python returns
`None`.  Formally: the result is exactly the validation prefix's result with
any success value replaced by `none`. -/
theorem c10_theorem (cy : Option String) (H c_ops : PyVal) (solver : String)
    (h1 : solver ≠ "me") (h2 : solver ≠ "mc") :
    odeChecks cy H c_ops solver = (odeValidate cy H c_ops).map (fun _ => none) := by
  cases hv : odeValidate cy H c_ops with
  | error e => simp [odeChecks, hv, Except.map]
  | ok p =>
    obtain ⟨hp, cp⟩ := p
    simp [odeChecks, hv, Except.map, h1, h2]

/-- Witness for `c10_theorem`: the Schrödinger solver string `"se"`. -/
theorem c10_witness :
    odeChecks none (.list [.qobj 3]) (.list []) "se"
      = (odeValidate none (.list [.qobj 3]) (.list [])).map (fun _ => none) :=
  c10_theorem none (.list [.qobj 3]) (.list []) "se" (by decide) (by decide)

theorem mergeArgs_dict_self (D : List (String × PyVal)) (hD : (keysOf D).Nodup) :
    mergeArgs [] (.dict D) = .ok (.dict D) := by
  by_cases hempty : D = []
  · subst hempty; rfl
  · have ht : truthy (.dict D) = true := by
      cases D
      · exact absurd rfl hempty
      · rfl
    rw [mergeArgs_dict [] D ht, dictUpdate_nil D hD]

/-- A second `args` merge starting from an empty synthesized dict leaves the
first merge's result untouched. -/
theorem mergeArgs_idem (A : List (String × PyVal)) (args am : PyVal)
    (hnodup : (keysOf A).Nodup) (hm : mergeArgs A args = .ok am) :
    mergeArgs [] am = .ok am := by
  by_cases ht : truthy args = true
  · by_cases hd : ∃ d, args = .dict d
    · obtain ⟨d, rfl⟩ := hd
      rw [mergeArgs_dict A d ht] at hm
      injection hm with hm1
      subst hm1
      exact mergeArgs_dict_self (dictUpdate A d) (nodup_keysOf_dictUpdate d A hnodup)
    · by_cases hA : A = []
      · subst hA
        rw [mergeArgs_other_empty args ht (not_exists.mp hd)] at hm
        injection hm with hm1
        subst hm1
        exact mergeArgs_other_empty args ht (not_exists.mp hd)
      · rw [mergeArgs_other_nonempty A args ht (not_exists.mp hd) hA] at hm
        exact absurd hm (by simp)
  · have ht' : truthy args = false := Bool.not_eq_true _ ▸ ht
    rw [mergeArgs_falsy A args ht'] at hm
    injection hm with hm1
    subst hm1
    exact mergeArgs_dict_self A hnodup

/-- A successful `wrapSpec` preserves the "synthesized dict" shape of the
state: the dict is exactly `synthEntries 0` of some payload list whose length
is the counter. -/
theorem wrapSpec_synth (times : List Int) (x y : PyVal) (st st' : WrapState)
    (L : List (List Int)) (hst : st.args_new = synthEntries 0 L) (hn : st.n = L.length)
    (h : wrapSpec times st x = .ok (y, st')) :
    ∃ L', st'.args_new = synthEntries 0 L' ∧ st'.n = L'.length := by
  cases x with
  | list xs =>
    cases hw : wrapPass times st xs with
    | error e => simp [wrapSpec, hw] at h
    | ok res =>
      obtain ⟨ys, stx⟩ := res
      simp only [wrapSpec, hw, Except.ok.injEq, Prod.mk.injEq] at h
      obtain ⟨hy, hst'⟩ := h
      subst hst'
      have hfresh : keysFresh st.n st.args_new := by
        rw [hst, hn]
        exact keysFresh_synthEntries L
      obtain ⟨e1, e2⟩ := wrapPass_args times xs ys st stx hfresh hw
      refine ⟨L ++ arrayPayloads xs, ?_, ?_⟩
      · rw [e1, hst, hn, synthEntries_append L (arrayPayloads xs) 0]
        rw [Nat.zero_add]
      · rw [e2, hn, List.length_append]
  | qobj i => simp only [wrapSpec, Except.ok.injEq, Prod.mk.injEq] at h; rw [← h.2]; exact ⟨L, hst, hn⟩
  | func kd i => simp only [wrapSpec, Except.ok.injEq, Prod.mk.injEq] at h; rw [← h.2]; exact ⟨L, hst, hn⟩
  | str s => simp only [wrapSpec, Except.ok.injEq, Prod.mk.injEq] at h; rw [← h.2]; exact ⟨L, hst, hn⟩
  | ndarray a => simp only [wrapSpec, Except.ok.injEq, Prod.mk.injEq] at h; rw [← h.2]; exact ⟨L, hst, hn⟩
  | dict d => simp only [wrapSpec, Except.ok.injEq, Prod.mk.injEq] at h; rw [← h.2]; exact ⟨L, hst, hn⟩
  | pyInt i => simp only [wrapSpec, Except.ok.injEq, Prod.mk.injEq] at h; rw [← h.2]; exact ⟨L, hst, hn⟩
  | pyNone => simp only [wrapSpec, Except.ok.injEq, Prod.mk.injEq] at h; rw [← h.2]; exact ⟨L, hst, hn⟩

/-- A successful `wrapSpec` on a shape-valid specification produces an output
with no array-encoded terms, on which `wrapSpec` is the identity from any
state. -/
theorem wrapSpec_out_clean (times : List Int) (x y : PyVal) (st st' : WrapState)
    (hsh : ∀ xs, x = .list xs → ∀ e ∈ xs, elemShapeOk e = true)
    (h : wrapSpec times st x = .ok (y, st')) :
    hasArrayTerm y = false ∧ (∀ st0 : WrapState, wrapSpec times st0 y = .ok (y, st0)) := by
  cases x
  case list xs =>
    cases hw : wrapPass times st xs with
    | error e => simp [wrapSpec, hw] at h
    | ok res =>
      obtain ⟨ys, stx⟩ := res
      simp only [wrapSpec, hw, Except.ok.injEq, Prod.mk.injEq] at h
      obtain ⟨hy, hst'⟩ := h
      subst hy
      have hin : ∀ e' ∈ ys, wrapInert e' = true :=
        wrapPass_out_inert times xs ys st stx (hsh xs rfl) hw
      constructor
      · show List.any ys isArrayTerm = false
        rw [List.any_eq_false]
        intro e' he'
        rw [not_arrayTerm_of_inert e' (hin e' he')]
        simp
      · intro st0
        simp [wrapSpec, wrapPass_of_inert times ys st0 hin]
  all_goals
    simp only [wrapSpec, Except.ok.injEq, Prod.mk.injEq] at h
    obtain ⟨hy, hst'⟩ := h
    subst hy
    exact ⟨rfl, fun st0 => rfl⟩

/-- **C3** (corrected).  The claimed expression string uses `"4.0"`, but
Python's `"%f"` renders the final grid time with six decimals: `"4.000000"`.
Amended claim, proved here: for a Hamiltonian whose first term carries a
length-5 sampled array and whose second term is a bare token, grid
`[0,1,2,3,4]` and empty extra parameters, the normalizer replaces the first
descriptor with exactly
`"(0 if (t > 4.000000) else _td_array_0[round(4 * (t/4.000000))])"`, keeps the
second term, and returns exactly the single binding `_td_array_0 ↦ array`. -/
theorem c3_amended_theorem (a : List Int) (opA opB : Nat) (hlen : a.length = 5) :
    tdWrapArrayStr (.list [.list [.qobj opA, .ndarray a], .qobj opB]) (.list [])
      (.dict []) [0, 1, 2, 3, 4]
      = .ok (.list [.list [.qobj opA,
          .str "(0 if (t > 4.000000) else _td_array_0[round(4 * (t/4.000000))])"],
          .qobj opB],
        .list [], .dict [("_td_array_0", .ndarray a)]) := rfl

/-- **C3** counterexample: at the concrete array `[1,2,3,4,5]` the normalizer
produces the `"4.000000"` string, which differs from the string the claim
demands. -/
theorem c3_counterexample :
    (tdWrapArrayStr (.list [.list [.qobj 0, .ndarray [1, 2, 3, 4, 5]], .qobj 1])
      (.list []) (.dict []) [0, 1, 2, 3, 4]
      = .ok (.list [.list [.qobj 0,
          .str "(0 if (t > 4.000000) else _td_array_0[round(4 * (t/4.000000))])"],
          .qobj 1],
        .list [], .dict [("_td_array_0", .ndarray [1, 2, 3, 4, 5])]))
    ∧ "(0 if (t > 4.000000) else _td_array_0[round(4 * (t/4.000000))])"
      ≠ "(0 if (t > 4.0) else _td_array_0[round(4 * (t/4.0))])" :=
  ⟨rfl, by decide⟩

/-- Witness for `c3_amended_theorem` at the array `[10, 20, 30, 40, 50]`. -/
theorem c3_witness :
    tdWrapArrayStr (.list [.list [.qobj 0, .ndarray [10, 20, 30, 40, 50]], .qobj 1])
      (.list []) (.dict []) [0, 1, 2, 3, 4]
      = .ok (.list [.list [.qobj 0,
          .str "(0 if (t > 4.000000) else _td_array_0[round(4 * (t/4.000000))])"],
          .qobj 1],
        .list [], .dict [("_td_array_0", .ndarray [10, 20, 30, 40, 50])]) :=
  c3_amended_theorem [10, 20, 30, 40, 50] 0 1 rfl

/-- **C7** (confirmed).  The final `args` merge of the normalizer: with a
falsy caller value the result is exactly the synthesized dict; with a (truthy)
dict the result is the synthesized dict updated by the caller's entries, and
lookups show caller entries win on every key collision; with a truthy
non-dict value and a non-empty synthesized dict it fails with the
`ValueError` (`IncompatibleParameterFormat`). -/
theorem c7_theorem (args_new : List (String × PyVal)) (args : PyVal) :
    (truthy args = false → mergeArgs args_new args = .ok (.dict args_new))
    ∧ (∀ d, args = .dict d → (keysOf d).Nodup → truthy args = true →
        mergeArgs args_new args = .ok (.dict (dictUpdate args_new d))
        ∧ ∀ k, dictGet? (dictUpdate args_new d) k =
            match dictGet? d k with
            | some v => some v
            | none => dictGet? args_new k)
    ∧ (truthy args = true → (∀ d, args ≠ .dict d) → args_new ≠ [] →
        mergeArgs args_new args = .error .argsValueError) := by
  refine ⟨fun h => mergeArgs_falsy args_new args h, ?_, ?_⟩
  · intro d hd hnd ht
    subst hd
    exact ⟨mergeArgs_dict args_new d ht, fun k => dictGet?_dictUpdate d args_new k hnd⟩
  · intro ht hnd hne
    exact mergeArgs_other_nonempty args_new args ht hnd hne

/-- Witness for `c7_theorem`: one synthesized entry colliding with a caller
entry (the caller's value `2` wins), plus the non-dict failure case. -/
theorem c7_witness :
    (mergeArgs [("_td_array_0", .pyInt 1)] (.dict [("_td_array_0", .pyInt 2)])
      = .ok (.dict (dictUpdate [("_td_array_0", .pyInt 1)] [("_td_array_0", .pyInt 2)])))
    ∧ dictGet? (dictUpdate [("_td_array_0", .pyInt 1)] [("_td_array_0", .pyInt 2)])
        "_td_array_0" = some (.pyInt 2)
    ∧ mergeArgs [("_td_array_0", .pyInt 1)] (.str "oops") = .error .argsValueError := by
  have h := (c7_theorem [("_td_array_0", .pyInt 1)] (.dict [("_td_array_0", .pyInt 2)])).2.1
    [("_td_array_0", .pyInt 2)] rfl (by decide) rfl
  have h3 := (c7_theorem [("_td_array_0", .pyInt 1)] (.str "oops")).2.2 rfl
    (fun d hd => PyVal.noConfusion hd) (by simp)
  exact ⟨h.1, (h.2 "_td_array_0").trans rfl, h3⟩

/-- **C9** (confirmed).  With empty caller parameters the returned mapping is
exactly the synthesized one, and it equals `synthEntries 0` of the Hamiltonian
array payloads followed by the collapse array payloads: names `_td_array_<i>`
are handed out by one counter starting at 0, incremented once per array term,
Hamiltonian terms first in list order, collapse terms continuing where the
Hamiltonian left off; all names are distinct. -/
theorem c9_theorem (times : List Int) (xsH xsC : List PyVal) (H' c' : PyVal)
    (A : List (String × PyVal))
    (h : tdWrapArrayStr (.list xsH) (.list xsC) (.dict []) times
      = .ok (H', c', .dict A)) :
    A = synthEntries 0 (arrayPayloads xsH ++ arrayPayloads xsC)
    ∧ (keysOf A).Nodup := by
  cases hw1 : wrapSpec times ⟨0, []⟩ (.list xsH) with
  | error e => simp [tdWrapArrayStr, hw1] at h
  | ok res1 =>
    obtain ⟨Hn, st1⟩ := res1
    cases hw2 : wrapSpec times st1 (.list xsC) with
    | error e => simp [tdWrapArrayStr, hw1, hw2] at h
    | ok res2 =>
      obtain ⟨cn, st2⟩ := res2
      have hm : mergeArgs st2.args_new (.dict []) = .ok (.dict st2.args_new) :=
        mergeArgs_falsy st2.args_new (.dict []) rfl
      simp only [tdWrapArrayStr, hw1, hw2, hm, Except.ok.injEq, Prod.mk.injEq,
        PyVal.dict.injEq] at h
      -- first pass, from the empty state
      cases hp1 : wrapPass times ⟨0, []⟩ xsH with
      | error e => simp [wrapSpec, hp1] at hw1
      | ok res1' =>
        obtain ⟨ys, st1'⟩ := res1'
        simp only [wrapSpec, hp1, Except.ok.injEq, Prod.mk.injEq] at hw1
        obtain ⟨hy1, hst1⟩ := hw1
        subst hst1
        obtain ⟨e1, e2⟩ := wrapPass_args times xsH ys ⟨0, []⟩ st1' (keysFresh_nil 0) hp1
        have e1' : st1'.args_new = synthEntries 0 (arrayPayloads xsH) := by
          rw [e1]; simp
        have e2' : st1'.n = (arrayPayloads xsH).length := by
          rw [e2]
          show 0 + (arrayPayloads xsH).length = (arrayPayloads xsH).length
          exact Nat.zero_add _
        -- second pass
        cases hp2 : wrapPass times st1' xsC with
        | error e => simp [wrapSpec, hp2] at hw2
        | ok res2' =>
          obtain ⟨zs, st2'⟩ := res2'
          simp only [wrapSpec, hp2, Except.ok.injEq, Prod.mk.injEq] at hw2
          obtain ⟨hy2, hst2⟩ := hw2
          subst hst2
          have hfresh1 : keysFresh st1'.n st1'.args_new := by
            rw [e1', e2']
            exact keysFresh_synthEntries (arrayPayloads xsH)
          obtain ⟨f1, f2⟩ := wrapPass_args times xsC zs st1' st2' hfresh1 hp2
          have key : st2'.args_new
              = synthEntries 0 (arrayPayloads xsH ++ arrayPayloads xsC) := by
            rw [f1, e1', e2',
              synthEntries_append (arrayPayloads xsH) (arrayPayloads xsC) 0,
              Nat.zero_add]
          rw [← h.2.2, key]
          exact ⟨rfl, nodup_keysOf_synthEntries _ 0⟩

/-- Witness for `c9_theorem`: two Hamiltonian arrays and one collapse array
get the consecutive names `_td_array_0`, `_td_array_1`, `_td_array_2`. -/
theorem c9_witness :
    ([("_td_array_0", PyVal.ndarray [1]), ("_td_array_1", PyVal.ndarray [2]),
        ("_td_array_2", PyVal.ndarray [3])]
      = synthEntries 0
          (arrayPayloads [.list [.qobj 0, .ndarray [1]], .list [.qobj 1, .ndarray [2]]]
            ++ arrayPayloads [.list [.qobj 2, .ndarray [3]]]))
    ∧ (keysOf [("_td_array_0", PyVal.ndarray [1]), ("_td_array_1", PyVal.ndarray [2]),
        ("_td_array_2", PyVal.ndarray [3])]).Nodup :=
  c9_theorem [0, 2] [.list [.qobj 0, .ndarray [1]], .list [.qobj 1, .ndarray [2]]]
    [.list [.qobj 2, .ndarray [3]]]
    (.list [.list [.qobj 0, .str (tdStr 2 "_td_array_0" 1)],
      .list [.qobj 1, .str (tdStr 2 "_td_array_1" 1)]])
    (.list [.list [.qobj 2, .str (tdStr 2 "_td_array_2" 1)]])
    [("_td_array_0", PyVal.ndarray [1]), ("_td_array_1", PyVal.ndarray [2]),
      ("_td_array_2", PyVal.ndarray [3])] rfl

/-- **C6** (confirmed).  On a shape-valid specification containing no
array-encoded term, the normalizer returns the Hamiltonian and the collapse
operators unchanged in value, and, when the caller supplied a truthy extra
parameter value, that value unchanged.  (The embedding is a pure function, so
freedom from input mutation is inherent: all outputs are values equal to the
inputs; the caller's dict is assumed to satisfy the Python-dict invariant of
distinct keys.) -/
theorem c6_theorem (H c_ops args : PyVal) (times : List Int) (hp cp : TdPartition)
    (hH : hPartition H = .ok hp) (hc : cPartition c_ops = .ok cp)
    (hnoH : hasArrayTerm H = false) (hnoC : hasArrayTerm c_ops = false)
    (hargs : argsWF args) :
    ∃ a', tdWrapArrayStr H c_ops args times = .ok (H, c_ops, a')
      ∧ (truthy args = true → a' = args) := by
  have hid : ∀ (x : PyVal) (p : TdPartition) (err : ClassifyError),
      (∀ xs, x = .list xs → partitionGo err 0 ⟨[], [], []⟩ xs = .ok p) →
      hasArrayTerm x = false → ∀ st : WrapState, wrapSpec times st x = .ok (x, st) := by
    intro x p err hxp hnox st
    cases x <;> try rfl
    case list xs =>
      have hshape := partitionGo_ok_shape err xs 0 ⟨[], [], []⟩ p (hxp xs rfl)
      have hany : xs.any isArrayTerm = false := hnox
      have hinert : ∀ e ∈ xs, wrapInert e = true := by
        intro e he
        have harr : ¬ isArrayTerm e = true := (List.any_eq_false.mp hany) e he
        have hpn : payloadOf e = none := by
          cases hpe : payloadOf e with
          | none => rfl
          | some a => exact absurd (by simp [isArrayTerm, hpe]) harr
        exact inert_of_shapeOk_payload_none e (hshape e he) hpn
      simp [wrapSpec, wrapPass_of_inert times xs st hinert]
  have h1 : wrapSpec times ⟨0, []⟩ H = .ok (H, ⟨0, []⟩) := by
    refine hid H hp .malformedH ?_ hnoH ⟨0, []⟩
    intro xs hxs
    subst hxs
    exact hH
  have h2 : wrapSpec times ⟨0, []⟩ c_ops = .ok (c_ops, ⟨0, []⟩) := by
    refine hid c_ops cp .malformedC ?_ hnoC ⟨0, []⟩
    intro xs hxs
    subst hxs
    exact hc
  have h3 : ∃ a', mergeArgs [] args = .ok a' ∧ (truthy args = true → a' = args) := by
    by_cases ht : truthy args = true
    · by_cases hd : ∃ d, args = .dict d
      · obtain ⟨d, rfl⟩ := hd
        refine ⟨.dict d, ?_, fun _ => rfl⟩
        rw [mergeArgs_dict [] d ht, dictUpdate_nil d (hargs d rfl)]
      · exact ⟨args, mergeArgs_other_empty args ht (not_exists.mp hd), fun _ => rfl⟩
    · refine ⟨.dict [], mergeArgs_falsy [] args (Bool.not_eq_true _ ▸ ht), ?_⟩
      intro htr
      exact absurd htr ht
  obtain ⟨a', hma, himp⟩ := h3
  exact ⟨a', by simp [tdWrapArrayStr, h1, h2, hma], himp⟩

/-- Witness for `c6_theorem`: a constant-plus-string Hamiltonian, empty
collapse list and a non-empty caller dict pass through unchanged. -/
theorem c6_witness :
    ∃ a', tdWrapArrayStr (.list [.qobj 5, .list [.qobj 1, .str "cos(t)"]]) (.list [])
        (.dict [("w", .pyInt 7)]) []
      = .ok (.list [.qobj 5, .list [.qobj 1, .str "cos(t)"]], .list [], a')
      ∧ (truthy (.dict [("w", .pyInt 7)]) = true → a' = .dict [("w", .pyInt 7)]) :=
  c6_theorem (.list [.qobj 5, .list [.qobj 1, .str "cos(t)"]]) (.list [])
    (.dict [("w", .pyInt 7)]) [] ⟨[0], [], [1]⟩ ⟨[], [], []⟩ rfl rfl rfl rfl
    (fun d hd => by injection hd with h1; subst h1; decide)

/-- **C5** (confirmed).  On every shape-valid input accepted by the
normalizer, the output contains no array descriptors (the rewritten
specification has no array-encoded term), and running the normalizer again on
its own output returns that output unchanged: normalization is idempotent
with respect to the array encoding. -/
theorem c5_theorem (H c_ops args : PyVal) (times : List Int) (hp cp : TdPartition)
    (H' c' a' : PyVal)
    (hH : hPartition H = .ok hp) (hc : cPartition c_ops = .ok cp)
    (h : tdWrapArrayStr H c_ops args times = .ok (H', c', a')) :
    hasArrayTerm H' = false ∧ hasArrayTerm c' = false
    ∧ tdWrapArrayStr H' c' a' times = .ok (H', c', a') := by
  cases hw1 : wrapSpec times ⟨0, []⟩ H with
  | error e => simp [tdWrapArrayStr, hw1] at h
  | ok res1 =>
    obtain ⟨Hn, st1⟩ := res1
    cases hw2 : wrapSpec times st1 c_ops with
    | error e => simp [tdWrapArrayStr, hw1, hw2] at h
    | ok res2 =>
      obtain ⟨cn, st2⟩ := res2
      cases hm : mergeArgs st2.args_new args with
      | error e => simp [tdWrapArrayStr, hw1, hw2, hm] at h
      | ok am =>
        simp only [tdWrapArrayStr, hw1, hw2, hm, Except.ok.injEq, Prod.mk.injEq] at h
        obtain ⟨hH', hc', ha'⟩ := h
        subst hH'
        subst hc'
        subst ha'
        have hshH : ∀ xs, H = .list xs → ∀ e ∈ xs, elemShapeOk e = true := by
          intro xs hxs
          subst hxs
          exact partitionGo_ok_shape .malformedH xs 0 ⟨[], [], []⟩ hp hH
        have hshC : ∀ xs, c_ops = .list xs → ∀ e ∈ xs, elemShapeOk e = true := by
          intro xs hxs
          subst hxs
          exact partitionGo_ok_shape .malformedC xs 0 ⟨[], [], []⟩ cp hc
        obtain ⟨hnH, hpassH⟩ := wrapSpec_out_clean times H Hn ⟨0, []⟩ st1 hshH hw1
        obtain ⟨hnC, hpassC⟩ := wrapSpec_out_clean times c_ops cn st1 st2 hshC hw2
        obtain ⟨L1, g1, g2⟩ := wrapSpec_synth times H Hn ⟨0, []⟩ st1 [] rfl rfl hw1
        obtain ⟨L2, g3, g4⟩ := wrapSpec_synth times c_ops cn st1 st2 L1 g1 g2 hw2
        have hnodup : (keysOf st2.args_new).Nodup := by
          rw [g3]
          exact nodup_keysOf_synthEntries L2 0
        have hm2 : mergeArgs [] am = .ok am := mergeArgs_idem st2.args_new args am hnodup hm
        refine ⟨hnH, hnC, ?_⟩
        simp [tdWrapArrayStr, hpassH ⟨0, []⟩, hpassC ⟨0, []⟩, hm2]

/-- Witness for `c5_theorem`: an array term is rewritten to a string term and
a second pass is a no-op. -/
theorem c5_witness :
    hasArrayTerm (.list [.list [.qobj 0,
        .str "(0 if (t > 4.000000) else _td_array_0[round(4 * (t/4.000000))])"], .qobj 1])
      = false
    ∧ hasArrayTerm (.list []) = false
    ∧ tdWrapArrayStr
        (.list [.list [.qobj 0,
          .str "(0 if (t > 4.000000) else _td_array_0[round(4 * (t/4.000000))])"], .qobj 1])
        (.list []) (.dict [("_td_array_0", .ndarray [1, 2, 3, 4, 5])]) [0, 1, 2, 3, 4]
      = .ok (.list [.list [.qobj 0,
          .str "(0 if (t > 4.000000) else _td_array_0[round(4 * (t/4.000000))])"], .qobj 1],
        .list [], .dict [("_td_array_0", .ndarray [1, 2, 3, 4, 5])]) :=
  c5_theorem (.list [.list [.qobj 0, .ndarray [1, 2, 3, 4, 5]], .qobj 1]) (.list [])
    (.dict []) [0, 1, 2, 3, 4] ⟨[1], [], [0]⟩ ⟨[], [], []⟩
    (.list [.list [.qobj 0,
      .str "(0 if (t > 4.000000) else _td_array_0[round(4 * (t/4.000000))])"], .qobj 1])
    (.list []) (.dict [("_td_array_0", .ndarray [1, 2, 3, 4, 5])]) rfl rfl rfl
